import Mathlib

/-!
# Verification of the rust-rag retrieval core

Shallow embedding of the retrieval core of the `rust-rag` repository:
the sentence-aware chunker (`chunk/src/data.rs`), the BM25 sparse index and
hybrid fusion (`lexical/src/hybrid.rs`), and the iterative refiner
(`iterative/src/retrieval.rs`).

Modelling conventions:
* Rust `String`/`&str` values are modelled as `List Char`; `usize` as `Nat`.
* `f32` arithmetic is modelled as exact rational arithmetic (`ℚ`);
  `f32::EPSILON` is the literal constant `2⁻²³`.
* External collaborators (the ChromaDB vector index, the sentence embedder,
  the `bm25` crate's fitted embedder) are modelled at their interface: their
  responses are passed in as arguments to the embedded functions.
-/

/-- Rust `char::is_whitespace` restricted to the whitespace characters the
corpus can contain (ASCII whitespace). -/
def isWs (c : Char) : Bool :=
  c = ' ' || c = '\t' || c = '\n' || c = '\r' || c = '\x0b' || c = '\x0c'

/-- Terminal sentence punctuation of the regex `(.*?[.!?])\s+`. -/
def isPunct (c : Char) : Bool :=
  c = '.' || c = '!' || c = '?'

/-- Rust `str::trim`: strip leading and trailing whitespace. -/
def trimChars (l : List Char) : List Char :=
  ((l.dropWhile isWs).reverse.dropWhile isWs).reverse

/-- Accumulator-based splitter behind `splitWs` (`cur` holds the current word
reversed). -/
def splitWsAux : List Char → List Char → List (List Char)
  | [], cur => if cur.isEmpty then [] else [cur.reverse]
  | c :: rest, cur =>
    if isWs c then
      if cur.isEmpty then splitWsAux rest []
      else cur.reverse :: splitWsAux rest []
    else splitWsAux rest (c :: cur)

/-- Rust `str::split_whitespace`: maximal whitespace-free words, in order. -/
def splitWs (l : List Char) : List (List Char) :=
  splitWsAux l []

/-- Locate the first occurrence of a terminal punctuation character that is
immediately followed by a whitespace character.  Returns the characters
strictly before the punctuation, the punctuation character, and the rest of
the text starting with the following whitespace character. -/
def findPunctWs : List Char → Option (List Char × Char × List Char)
  | [] => none
  | [_] => none
  | c :: d :: rest =>
    if isPunct c && isWs d then some ([], c, d :: rest)
    else
      match findPunctWs (d :: rest) with
      | some (p, pc, r) => some (c :: p, pc, r)
      | none => none

/-- One regex match of `(.*?[.!?])\s+` in leftmost-first, lazy-group,
greedy-`\s+` semantics.  The lazy group `(.*?)` cannot cross a `'\n'`
(regex `.` does not match a newline), so the match starts after the last
newline preceding the punctuation; earlier characters are skipped by the
match iterator.  Returns `(matched text, rest after the match)`. -/
def regexNextMatch (cs : List Char) : Option (List Char × List Char) :=
  match findPunctWs cs with
  | none => none
  | some (pre, pc, rest) =>
    let group := (pre.reverse.takeWhile (fun c => c ≠ '\n')).reverse
    let ws := rest.takeWhile isWs
    let rest' := rest.dropWhile isWs
    some (group ++ pc :: ws, rest')

/-- Fuelled iteration of `regexNextMatch` (`Regex::find_iter`): each match is
pushed trimmed, and the text after the last match is returned.  Every match
consumes at least two characters, so fuel `cs.length` is never exhausted. -/
def findIterLoop : Nat → List Char → List (List Char) × List Char
  | 0, cs => ([], cs)
  | fuel + 1, cs =>
    match regexNextMatch cs with
    | none => ([], cs)
    | some (m, rest) =>
      let (ms, rem) := findIterLoop fuel rest
      (trimChars m :: ms, rem)

/-- The sentence list built by `chunk_text` (`data.rs` lines 31–48): regex
matches trimmed, then the trailing fragment if nonempty after trimming, then
the whole trimmed text as a fallback when no sentence was found. -/
def sentencesOf (cs : List Char) : List (List Char) :=
  let (ms, rem) := findIterLoop cs.length cs
  let withRem :=
    if rem.isEmpty then ms
    else
      let r := trimChars rem
      if r.isEmpty then ms else ms ++ [r]
  if withRem.isEmpty && !(trimChars cs).isEmpty then [trimChars cs] else withRem

/-- Word count of a sentence (`sentence.split_whitespace().count()`). -/
def sentWords (s : List Char) : Nat :=
  (splitWs s).length

/-- The inner `while sentence_index < sentences.len()` loop of `chunk_text`:
consume sentences into the current chunk until adding the next one would
exceed `chunk_size` words and the chunk is already nonempty.  Arguments are
the remaining sentences, the running word count and the current chunk;
returns (number of sentences consumed, new word count, new current chunk). -/
def consumeSents (csize : Nat) : List (List Char) → Nat → List Char → Nat × Nat × List Char
  | [], wc, cur => (0, wc, cur)
  | s :: rest, wc, cur =>
    let sw := sentWords s
    if wc + sw > csize && !cur.isEmpty then (0, wc, cur)
    else
      let cur' := if cur.isEmpty then s else cur ++ ' ' :: s
      let (k, wc', c') := consumeSents csize rest (wc + sw) cur'
      (k + 1, wc', c')

/-- The backward overlap walk (`while temp_index > 0 && overlap_words <
overlap`): the argument is the already-consumed sentence prefix reversed;
returns (number of sentences stepped back over, accumulated word count). -/
def backoff (overlap : Nat) : List (List Char) → Nat → Nat × Nat
  | [], ow => (0, ow)
  | s :: rest, ow =>
    if ow < overlap then
      let (k, ow') := backoff overlap rest (ow + sentWords s)
      (k + 1, ow')
    else (0, ow)

/-- The `for i in (0..words.len()).step_by(step)` loop of `chunk_text`.
State: pending `i` values, `sentence_index`, `word_count`, `current_chunk`,
accumulated chunks.  Returns the final `(sentence_index, current_chunk,
chunks)`.  In the source, after the backward overlap walk `current_chunk` is
rebuilt from the slice `sentences[temp_index..sentence_index]` — but
`sentence_index` has already been set to `temp_index` on the previous line,
so that slice is empty and `current_chunk` is always cleared; the model
writes `[]` directly. -/
def chunkLoop (sents : List (List Char)) (csize ov nWords : Nat) :
    List Nat → Nat → Nat → List Char → List (List Char) →
    Nat × List Char × List (List Char)
  | [], sIdx, _, cur, acc => (sIdx, cur, acc)
  | i :: is, sIdx, wc, _, acc =>
    let e := min (i + csize) nWords
    let (k, _, cur') := consumeSents csize (sents.drop sIdx) wc []
    let sIdx' := sIdx + k
    let acc' := if cur'.isEmpty then acc else acc ++ [cur']
    if sIdx' ≥ sents.length && e ≥ nWords then (sIdx', cur', acc')
    else if 0 < ov then
      let (kb, ow) := backoff ov ((sents.take sIdx').reverse) 0
      chunkLoop sents csize ov nWords is (sIdx' - kb) ow [] acc'
    else chunkLoop sents csize ov nWords is sIdx' 0 [] acc'

/-- The trailing "add any remaining content" block of `chunk_text`. -/
def chunkTail (sents : List (List Char)) (sIdx : Nat) (cur : List Char)
    (acc : List (List Char)) : List (List Char) :=
  if !cur.isEmpty && sIdx < sents.length then
    let cur' := (sents.drop sIdx).foldl
      (fun c s => if c.isEmpty then c ++ s else c ++ ' ' :: s) cur
    acc ++ [trimChars cur']
  else acc

/-- `chunk_text` from `chunk/src/data.rs`, on character lists. -/
def chunkTextL (text : List Char) (csize ov : Nat) : List (List Char) :=
  if csize = 0 then []
  else if ov ≥ csize then [text]
  else
    let sents := sentencesOf text
    let ws := (splitWs text).filter (fun w => !w.isEmpty)
    if ws.isEmpty then []
    else
      let step := csize - ov
      let n := ws.length
      let iters := (List.range ((n + step - 1) / step)).map (· * step)
      let (sIdx, cur, acc) := chunkLoop sents csize ov n iters 0 0 [] []
      chunkTail sents sIdx cur acc

/-- `chunk_text` on Lean strings. -/
def chunk_text (s : String) (csize ov : Nat) : List String :=
  (chunkTextL s.toList csize ov).map fun l => String.mk l

/-! ## Sparse index and hybrid fusion (`lexical/src/hybrid.rs`) -/

/-- A sparse embedding of the `bm25` crate: a list of
`TokenEmbedding { index, value }` pairs. -/
abbrev SparseEmb := List (Nat × ℚ)

/-- `Bm25Index`: the precomputed sparse embeddings of every corpus chunk, in
build order.  The crate's fitted `Embedder` is an external collaborator, so
query texts arrive here already embedded. -/
structure Bm25Index where
  docEmbeddings : List SparseEmb

/-- `dot`: dot product of two sparse embeddings, by the source's nested loop
over both token lists, summing `qv * dv` whenever the token indices agree. -/
def dot (a b : SparseEmb) : ℚ :=
  a.foldl (fun s p => b.foldl (fun t q => if p.1 = q.1 then t + p.2 * q.2 else t) s) 0

/-- `Bm25Index::score`: one BM25 score per corpus chunk, in build order, as
the dot product of the query embedding with each precomputed embedding. -/
def bm25Score (idx : Bm25Index) (qEmb : SparseEmb) : List ℚ :=
  idx.docEmbeddings.map fun d => dot qEmb d

/-- `f32::EPSILON` as an exact rational. -/
def f32Eps : ℚ := 1 / 2 ^ 23

/-- The `(f32::INFINITY, f32::NEG_INFINITY)` min/max fold over the BM25
scores.  Over `ℚ` there are no infinities, so the fold is seeded with the
head of the list; on every nonempty list this agrees with the source, and an
empty corpus produces an empty ranking either way. -/
def minMaxFold : List ℚ → Option (ℚ × ℚ)
  | [] => none
  | x :: xs => some (xs.foldl (fun p v => (min p.1 v, max p.2 v)) (x, x))

/-- Min–max normalization of the `i`-th BM25 score, exactly as in step 4 of
`hybrid_retrieval`: `(b_raw - b_min) / (b_max - b_min).max(f32::EPSILON)`. -/
def sparseNorm (bScores : List ℚ) (i : Nat) : ℚ :=
  match minMaxFold bScores with
  | none => 0
  | some (bMin, bMax) => (bScores.getD i 0 - bMin) / max (bMax - bMin) f32Eps

/-- Step 3 of `hybrid_retrieval`: fold the dense response into the
`embed_sim` map.  The response ids arrive as `Option Nat` (the outcome of
`id_str.parse::<usize>()`; `none` models an unparseable id, which the source
skips).  `HashMap::insert` overwrites, so the map is a total function updated
left to right, and `unwrap_or(&0.0)` makes the default value `0`. -/
def buildSimAux (dists : List ℚ) : List (Option Nat) → Nat → (Nat → ℚ) → Nat → ℚ
  | [], _, f => f
  | o :: rest, i, f =>
    buildSimAux dists rest (i + 1)
      (match o with
       | some idx => Function.update f idx (1 / (1 + dists.getD i 0))
       | none => f)

/-- The dense-similarity map of `hybrid_retrieval`: `1 / (1 + distance)` for
chunks in the dense candidate set, `0` for absent chunks. -/
def denseSim (ids : List (Option Nat)) (dists : List ℚ) : Nat → ℚ :=
  buildSimAux dists ids 0 fun _ => 0

/-- Step 4 of `hybrid_retrieval`: the fused `(index, score)` list in corpus
order, `alpha * b_norm + (1 - alpha) * e_sim` per chunk.  The source computes
`b_min`, `b_max` and `denom` once before the map; `sparseNorm` recomputes the
same values per entry, which is pointwise equal. -/
def hybridMerged (bScores : List ℚ) (ids : List (Option Nat)) (dists : List ℚ)
    (alpha : ℚ) : List (Nat × ℚ) :=
  bScores.enum.map fun p =>
    (p.1, alpha * sparseNorm bScores p.1 + (1 - alpha) * denseSim ids dists p.1)

/-- Step 5 of `hybrid_retrieval` before truncation:
`merged.sort_by(|a, b| b.1.partial_cmp(&a.1).unwrap())`.  Rust's `sort_by` is
a stable sort; a stable sort equals insertion sort with "stay before" given
by the comparator, here descending by score. -/
def hybridRanked (bScores : List ℚ) (ids : List (Option Nat)) (dists : List ℚ)
    (alpha : ℚ) : List (Nat × ℚ) :=
  (hybridMerged bScores ids dists alpha).insertionSort fun p q => q.2 ≤ p.2

/-- `hybrid_retrieval` from `lexical/src/hybrid.rs`.  The ChromaDB response
(parsed ids of the first group and their distances) is passed in as data;
the I/O error path of the source is orthogonal to the ranking logic. -/
def hybrid_retrieval (bm25 : Bm25Index) (qEmb : SparseEmb)
    (ids : List (Option Nat)) (dists : List ℚ) (topK : Nat) (alpha : ℚ) :
    List (Nat × ℚ) :=
  (hybridRanked (bm25Score bm25 qEmb) ids dists alpha).take topK

/-! ## Iterative refinement (`iterative/src/retrieval.rs`) -/

/-- The fixed stopword list `STOPWORDS`. -/
def stopwords : List (List Char) :=
  ["the", "and", "is", "in", "of", "to", "a", "that", "for", "on", "with",
   "as", "it", "by", "this", "are", "was", "at", "from", "or", "be", "which",
   "not", "can", "also", "have", "has", "had", "we", "they", "you", "he",
   "she", "his", "her", "its", "our", "us", "their", "them", "i", "do",
   "does", "did", "just", "so", "if", "may", "will", "shall", "more", "most",
   "some", "many", "any", "all", "what", "about", "would", "could", "should",
   "where", "when", "why", "how"].map String.toList

/-- Lowercase, split on whitespace, keep only alphanumeric characters of each
word, and drop words that become empty — the word normalization shared by the
chunk text and the query in `extract_refinement_keywords`. -/
def normWords (s : List Char) : List (List Char) :=
  ((splitWs (s.map Char.toLower)).map fun w => w.filter Char.isAlphanum).filter
    fun w => !w.isEmpty

/-- `extract_refinement_keywords`: candidate words of the chunk longer than
four characters that are neither stopwords nor words of the current query,
stably sorted by length descending, first two kept. -/
def extract_refinement_keywords (chunkText currentQuery : List Char) :
    List (List Char) :=
  let queryWords := normWords currentQuery
  let candidates := (normWords chunkText).filter fun w =>
    4 < w.length && !(stopwords.contains w) && !(queryWords.contains w)
  (candidates.insertionSort fun a b => b.length ≤ a.length).take 2

/-- `refine_query`: append the space-joined keywords to the query when there
are any. -/
def refine_query (currentQuery : List Char) (refineWords : List (List Char)) :
    List Char :=
  if refineWords.isEmpty then currentQuery
  else currentQuery ++ ' ' :: (List.intercalate [' '] refineWords)

/-- One iteration record of the refiner (`metadata` is the opaque JSON value
returned by `retrieve_best_chunk`, modelled as its text). -/
structure IterationResult where
  step : Nat
  query : List Char
  retrievedText : List Char
  metadata : List Char
  score : ℚ

/-- The `for step in 1..=steps` loop of `iterative_retrieval`.
`retrieve` models `retrieve_best_chunk` (an external, query-determined
response).  Arguments after the fixed ones: remaining fuel, current step
number, number of results pushed so far, `best_score`, current query.
Returns the results produced from this point on, paired with the number of
retrieval calls made. -/
def iterLoop (retrieve : List Char → Option (List Char × ℚ × List Char))
    (thr : ℚ) (maxChunks : Nat) :
    Nat → Nat → Nat → ℚ → List Char → List IterationResult × Nat
  | 0, _, _, _, _ => ([], 0)
  | fuel + 1, stepNo, pushed, best, q =>
    match retrieve q with
    | none => ([], 1)
    | some (text, score, meta) =>
      if score - best < thr then ([], 1)
      else
        let r : IterationResult := ⟨stepNo, q, text, meta, score⟩
        if pushed + 1 ≥ maxChunks then ([r], 1)
        else
          match extract_refinement_keywords text q with
          | [] => ([r], 1)
          | kw :: kws =>
            let p :=
              iterLoop retrieve thr maxChunks fuel (stepNo + 1) (pushed + 1)
                score (refine_query q (kw :: kws))
            (r :: p.1, p.2 + 1)

/-- `iterative_retrieval` from `iterative/src/retrieval.rs`: the accepted
iteration results, in arrival order. -/
def iterative_retrieval (retrieve : List Char → Option (List Char × ℚ × List Char))
    (initialQuery : List Char) (steps : Nat) (improvementThreshold : ℚ)
    (maxChunks : Nat) : List IterationResult :=
  (iterLoop retrieve improvementThreshold maxChunks steps 1 0 0 initialQuery).1

/-- Number of `retrieve_best_chunk` calls made by `iterative_retrieval`. -/
def iterativeCalls (retrieve : List Char → Option (List Char × ℚ × List Char))
    (initialQuery : List Char) (steps : Nat) (improvementThreshold : ℚ)
    (maxChunks : Nat) : Nat :=
  (iterLoop retrieve improvementThreshold maxChunks steps 1 0 0 initialQuery).2

/-! ## Helper lemmas -/

theorem splitWsAux_all_ws {l : List Char} (h : ∀ c ∈ l, isWs c) :
    splitWsAux l [] = [] := by
  induction l with
  | nil => rfl
  | cons c rest ih =>
    have hc : isWs c := h c (List.mem_cons_self c rest)
    simp only [splitWsAux, hc, List.isEmpty_nil, if_true]
    exact ih fun x hx => h x (List.mem_cons_of_mem c hx)

theorem splitWs_all_ws {l : List Char} (h : ∀ c ∈ l, isWs c) :
    splitWs l = [] :=
  splitWsAux_all_ws h

/-- C4: for every chunk size `target_size > 0` and overlap below it,
`chunk_text` returns the empty sequence on empty or whitespace-only input.
The claim's original quantification over all `overlap ≥ 0` fails: the
`overlap >= chunk_size` edge case returns the whole input as one chunk even
when that input is empty (see the counterexample). -/
theorem chunk_text_whitespace_empty (s : String) (csize ov : Nat)
    (h1 : 0 < csize) (h2 : ov < csize) (h3 : ∀ c ∈ s.toList, isWs c) :
    chunk_text s csize ov = [] := by
  have hs : splitWs s.toList = [] := splitWs_all_ws h3
  simp only [chunk_text, chunkTextL, hs]
  rw [if_neg (by omega), if_neg (by omega)]
  simp

/-- Witness for C4 at the whitespace-only input `" "`. -/
theorem chunk_text_whitespace_empty_witness :
    0 < 1 ∧ 0 < 1 ∧ chunk_text (" ") 1 0 = [] :=
  ⟨by decide, by decide,
    chunk_text_whitespace_empty (" ") 1 0 (by decide) (by decide) (by decide)⟩

/-- C4 counterexample: with `target_size = 1 > 0` and `overlap = 1 ≥ 0`, the
empty input yields the one-element sequence `[""]`, not the empty sequence:
the `overlap >= chunk_size` edge case returns `vec![text.to_string()]`
before the emptiness check. -/
theorem chunk_text_empty_overlap_cx :
    chunk_text ("") 1 1 = [""] ∧ chunk_text ("") 1 1 ≠ [] := by
  constructor
  · decide
  · decide

/-- C2 counterexample: `chunk_text("one two three four five six", 3, 0)` does
not return `["one two three", "four five six"]`.  The input contains no
terminal punctuation, so the whole text is one sentence, and the sentence
loop never splits a sentence: the first loop iteration emits the entire
six-word sentence as a single chunk. -/
theorem chunk_text_example_cx :
    chunk_text ("one two three four five six") 3 0 ≠
      ["one two three", "four five six"] := by
  decide

/-- C2 amended: on the punctuation-free input the whole text is a single
sentence, a sentence is never split, and a lone over-long sentence is
allowed to exceed the target, so the call returns exactly one chunk — the
entire input. -/
theorem chunk_text_example :
    chunk_text ("one two three four five six") 3 0 =
      ["one two three four five six"] := by
  decide

theorem minMaxFold_le {l : List ℚ} {m M : ℚ} (h : minMaxFold l = some (m, M)) :
    ∀ v ∈ l, m ≤ v ∧ v ≤ M := by
  match l with
  | [] => simp [minMaxFold] at h
  | x :: xs =>
    simp only [minMaxFold, Option.some.injEq] at h
    suffices hs : ∀ (a b : ℚ),
        (∀ v ∈ xs, (xs.foldl (fun p v => (min p.1 v, max p.2 v)) (a, b)).1 ≤ v ∧
          v ≤ (xs.foldl (fun p v => (min p.1 v, max p.2 v)) (a, b)).2) ∧
        (xs.foldl (fun p v => (min p.1 v, max p.2 v)) (a, b)).1 ≤ a ∧
        b ≤ (xs.foldl (fun p v => (min p.1 v, max p.2 v)) (a, b)).2 by
      intro v hv
      have h1 : (xs.foldl (fun p v => (min p.1 v, max p.2 v)) (x, x)).1 = m := by
        rw [h]
      have h2 : (xs.foldl (fun p v => (min p.1 v, max p.2 v)) (x, x)).2 = M := by
        rw [h]
      rcases List.mem_cons.mp hv with rfl | hv
      · exact ⟨h1 ▸ (hs v v).2.1, h2 ▸ (hs v v).2.2⟩
      · exact ⟨h1 ▸ ((hs x x).1 v hv).1, h2 ▸ ((hs x x).1 v hv).2⟩
    clear h
    induction xs with
    | nil => simp
    | cons y ys ih =>
      intro a b
      refine ⟨?_, ?_, ?_⟩
      · intro v hv
        rcases List.mem_cons.mp hv with rfl | hv
        · simpa using ⟨le_trans ((ih (min a v) (max b v)).2.1) (min_le_right a v),
            le_trans (le_max_right b v) ((ih (min a v) (max b v)).2.2)⟩
        · simpa using (ih (min a y) (max b y)).1 v hv
      · simpa using le_trans ((ih (min a y) (max b y)).2.1) (min_le_left a y)
      · simpa using le_trans (le_max_left b y) ((ih (min a y) (max b y)).2.2)

theorem f32Eps_pos : (0 : ℚ) < f32Eps := by norm_num [f32Eps]

/-- C6: if the whole-corpus minimum and maximum BM25 scores coincide, every
min–max-normalized sparse score is `0` (the `(b_max - b_min).max(EPSILON)`
denominator makes this defined behavior, not a division error); otherwise —
and in fact always — normalized scores lie in `[0, 1]`. -/
theorem sparseNorm_bounds (bScores : List ℚ) (bMin bMax : ℚ)
    (h : minMaxFold bScores = some (bMin, bMax)) :
    (bMin = bMax → ∀ i < bScores.length, sparseNorm bScores i = 0) ∧
    (∀ i < bScores.length,
      0 ≤ sparseNorm bScores i ∧ sparseNorm bScores i ≤ 1) := by
  have hb := minMaxFold_le h
  have hden : (0 : ℚ) < max (bMax - bMin) f32Eps :=
    lt_of_lt_of_le f32Eps_pos (le_max_right _ _)
  constructor
  · intro heq i hi
    have hv := hb bScores[i] (bScores.getElem_mem hi)
    have hz : bScores.getD i 0 = bMin := by
      rw [List.getD_eq_getElem _ _ hi]
      exact le_antisymm (heq ▸ hv.2) hv.1
    simp only [sparseNorm, h]
    rw [hz, sub_self, zero_div]
  · intro i hi
    have hv := hb bScores[i] (bScores.getElem_mem hi)
    have hgd : bScores.getD i 0 = bScores[i] := List.getD_eq_getElem _ _ hi
    constructor
    · simp only [sparseNorm, h]
      exact div_nonneg (by rw [hgd]; linarith [hv.1]) (le_of_lt hden)
    · simp only [sparseNorm, h]
      rw [div_le_one hden, hgd]
      exact le_trans (by linarith [hv.2]) (le_max_left _ _)

/-- Witness for C6 at the degenerate uniform corpus `[2, 2]`. -/
theorem sparseNorm_bounds_witness :
    sparseNorm [(2 : ℚ), 2] 0 = 0 ∧ 0 ≤ sparseNorm [(2 : ℚ), 2] 1 ∧
      sparseNorm [(2 : ℚ), 2] 1 ≤ 1 := by
  have h := sparseNorm_bounds [(2 : ℚ), 2] 2 2 (by norm_num [minMaxFold])
  exact ⟨h.1 rfl 0 (by norm_num), (h.2 1 (by norm_num)).1, (h.2 1 (by norm_num)).2⟩

theorem buildSimAux_not_mem {dists : List ℚ} :
    ∀ (ids : List (Option Nat)) (k : Nat) (f : Nat → ℚ) (i : Nat),
      (some i) ∉ ids → buildSimAux dists ids k f i = f i := by
  intro ids
  induction ids with
  | nil => intro k f i _; rfl
  | cons o rest ih =>
    intro k f i h
    have ho : o ≠ some i := fun e => h (e ▸ List.mem_cons_self o rest)
    have hr : (some i) ∉ rest := fun e => h (List.mem_cons_of_mem o e)
    match o, ho with
    | none, _ => simpa only [buildSimAux] using ih (k + 1) f i hr
    | some idx, ho =>
      have hne : idx ≠ i := fun e => ho (by rw [e])
      simp only [buildSimAux]
      rw [ih (k + 1) _ i hr, Function.update_noteq (Ne.symm hne)]

theorem buildSimAux_last {dists : List ℚ} :
    ∀ (ids : List (Option Nat)) (k : Nat) (f : Nat → ℚ) (j i : Nat),
      ids[j]? = some (some i) →
      (∀ j', j < j' → ids[j']? ≠ some (some i)) →
      buildSimAux dists ids k f i = 1 / (1 + dists.getD (k + j) 0) := by
  intro ids
  induction ids with
  | nil => intro k f j i hj _; simp at hj
  | cons o rest ih =>
    intro k f j i hj hlast
    match j, hj with
    | 0, hj =>
      have ho : o = some i := by simpa using hj
      subst ho
      have hr : (some i) ∉ rest := by
        intro hmem
        obtain ⟨m, hm⟩ := List.getElem?_of_mem hmem
        exact hlast (m + 1) (Nat.succ_pos m) (by simpa using hm)
      simp only [buildSimAux]
      rw [buildSimAux_not_mem rest (k + 1) _ i hr, Function.update_same, Nat.add_zero]
    | m + 1, hj =>
      have hj' : rest[m]? = some (some i) := by simpa using hj
      have hlast' : ∀ j', m < j' → rest[j']? ≠ some (some i) := by
        intro j' hmj e
        exact hlast (j' + 1) (by omega) (by simpa using e)
      simp only [buildSimAux]
      rw [ih (k + 1) _ m i hj' hlast']
      have he : k + 1 + m = k + (m + 1) := by omega
      rw [he]

theorem denseSim_not_mem (ids : List (Option Nat)) (dists : List ℚ) (i : Nat)
    (h : (some i) ∉ ids) : denseSim ids dists i = 0 :=
  buildSimAux_not_mem ids 0 _ i h

theorem denseSim_last (ids : List (Option Nat)) (dists : List ℚ) (j i : Nat)
    (hj : ids[j]? = some (some i))
    (hlast : ∀ j', j < j' → ids[j']? ≠ some (some i)) :
    denseSim ids dists i = 1 / (1 + dists.getD j 0) := by
  simpa using buildSimAux_last ids 0 _ j i hj hlast

theorem pairwise_orderedInsert_desc (x : ℕ × ℚ) (l : List (ℕ × ℚ))
    (hl : l.Pairwise fun p q => q.2 < p.2 ∨ p.2 = q.2 ∧ p.1 < q.1)
    (hx : ∀ y ∈ l, x.1 < y.1) :
    (l.orderedInsert (fun p q => q.2 ≤ p.2) x).Pairwise
      fun p q => q.2 < p.2 ∨ p.2 = q.2 ∧ p.1 < q.1 := by
  induction l with
  | nil => simp [List.orderedInsert]
  | cons b t ih =>
    rw [List.pairwise_cons] at hl
    by_cases hxb : b.2 ≤ x.2
    · rw [List.orderedInsert, if_pos hxb]
      refine List.Pairwise.cons ?_ (List.pairwise_cons.mpr hl)
      intro z hz
      rcases List.mem_cons.mp hz with rfl | hz
      · rcases lt_or_eq_of_le hxb with hlt | heq
        · exact Or.inl hlt
        · exact Or.inr ⟨heq.symm, hx z (List.mem_cons_self z t)⟩
      · have hz2 : z.2 ≤ b.2 := by
          rcases hl.1 z hz with hlt | ⟨heq, _⟩
          · exact le_of_lt hlt
          · exact le_of_eq heq.symm
        rcases lt_or_eq_of_le (le_trans hz2 hxb) with hlt | heq
        · exact Or.inl hlt
        · exact Or.inr ⟨heq.symm, hx z (List.mem_cons_of_mem b hz)⟩
    · rw [List.orderedInsert, if_neg hxb]
      have hbx : x.2 < b.2 := lt_of_not_le hxb
      refine List.Pairwise.cons ?_
        (ih hl.2 fun y hy => hx y (List.mem_cons_of_mem b hy))
      intro z hz
      rcases (List.mem_orderedInsert _).mp hz with rfl | hz
      · exact Or.inl hbx
      · exact hl.1 z hz

theorem pairwise_insertionSort_desc (l : List (ℕ × ℚ))
    (h : l.Pairwise fun p q => p.1 < q.1) :
    (l.insertionSort (fun p q => q.2 ≤ p.2)).Pairwise
      fun p q => q.2 < p.2 ∨ p.2 = q.2 ∧ p.1 < q.1 := by
  induction l with
  | nil => simp [List.insertionSort]
  | cons x t ih =>
    rw [List.pairwise_cons] at h
    rw [List.insertionSort]
    exact pairwise_orderedInsert_desc x _ (ih h.2)
      fun y hy => h.1 y ((List.mem_insertionSort _).mp hy)

theorem pairwise_fst_lt_hybridMerged (bScores : List ℚ) (ids : List (Option Nat))
    (dists : List ℚ) (alpha : ℚ) :
    (hybridMerged bScores ids dists alpha).Pairwise fun p q => p.1 < q.1 := by
  rw [hybridMerged, List.pairwise_map]
  have he : bScores.enum.Pairwise fun p q => p.1 < q.1 := by
    rw [List.pairwise_iff_getElem]
    intro i j hi hj hij
    simp only [List.getElem_enum]
    exact hij
  exact he.imp fun hpq => hpq

/-- C3: every (chunk_index, score) pair returned by `hybrid_retrieval`
carries the fused score `alpha * normalized_sparse + (1 - alpha) *
dense_similarity` of its index; the dense similarity is `0` for chunks
absent from the dense candidate set and `1 / (1 + distance)` for the
candidate's (last) reported distance, so a chunk scored by BM25 alone is
never excluded. -/
theorem hybrid_fusion_score (bm : Bm25Index) (qEmb : SparseEmb)
    (ids : List (Option Nat)) (dists : List ℚ) (topK : Nat) (alpha : ℚ) :
    (∀ p ∈ hybrid_retrieval bm qEmb ids dists topK alpha,
       p.2 = alpha * sparseNorm (bm25Score bm qEmb) p.1 +
         (1 - alpha) * denseSim ids dists p.1) ∧
    (∀ i, (some i) ∉ ids → denseSim ids dists i = 0) ∧
    (∀ j i, ids[j]? = some (some i) →
       (∀ j', j < j' → ids[j']? ≠ some (some i)) →
       denseSim ids dists i = 1 / (1 + dists.getD j 0)) := by
  refine ⟨?_, fun i h => denseSim_not_mem ids dists i h,
    fun j i hj hl => denseSim_last ids dists j i hj hl⟩
  intro p hp
  have hp1 : p ∈ hybridRanked (bm25Score bm qEmb) ids dists alpha :=
    List.mem_of_mem_take hp
  have hp2 : p ∈ hybridMerged (bm25Score bm qEmb) ids dists alpha := by
    simpa [hybridRanked] using hp1
  obtain ⟨q, _, hq⟩ := List.mem_map.mp hp2
  rw [← hq]

/-- C5: the ranking returned by `hybrid_retrieval` is sorted in descending
order of fused score, ties between equal fused scores are broken by
ascending original corpus index (the stable sort keeps the corpus-order
enumeration), and the ranking is truncated to at most `top_k` entries.  The
embedding is a pure function, so identical inputs produce the identical
order. -/
theorem hybrid_ranking_order (bm : Bm25Index) (qEmb : SparseEmb)
    (ids : List (Option Nat)) (dists : List ℚ) (topK : Nat) (alpha : ℚ) :
    (hybrid_retrieval bm qEmb ids dists topK alpha).Pairwise
      (fun p q => q.2 < p.2 ∨ p.2 = q.2 ∧ p.1 < q.1) ∧
    (hybrid_retrieval bm qEmb ids dists topK alpha).length ≤ topK := by
  constructor
  · exact ((pairwise_insertionSort_desc _
      (pairwise_fst_lt_hybridMerged _ ids dists alpha)).sublist
        (List.take_sublist _ _))
  · simp only [hybrid_retrieval, List.length_take]
    exact Nat.min_le_left topK _

/-- C1 amended: `hybrid_retrieval` applies no relevance floor.  Every corpus
chunk index appears in the fused ranking before truncation, whatever its
fused score, and the returned ranking always has exactly
`min top_k corpus_size` entries — the only reduction is the `top_k`
truncation. -/
theorem hybrid_no_floor (bm : Bm25Index) (qEmb : SparseEmb)
    (ids : List (Option Nat)) (dists : List ℚ) (topK : Nat) (alpha : ℚ) :
    (hybrid_retrieval bm qEmb ids dists topK alpha).length =
      min topK bm.docEmbeddings.length ∧
    ∀ i < bm.docEmbeddings.length,
      ∃ s, (i, s) ∈ hybridRanked (bm25Score bm qEmb) ids dists alpha := by
  constructor
  · simp [hybrid_retrieval, hybridRanked, hybridMerged, bm25Score]
  · intro i hi
    have hi' : i < (bm25Score bm qEmb).length := by simpa [bm25Score] using hi
    refine ⟨alpha * sparseNorm (bm25Score bm qEmb) i +
      (1 - alpha) * denseSim ids dists i, ?_⟩
    rw [hybridRanked, List.mem_insertionSort, hybridMerged, List.mem_map]
    exact ⟨(i, (bm25Score bm qEmb)[i]),
      List.mk_mem_enum_iff_getElem?.mpr (List.getElem?_eq_getElem hi'), rfl⟩

/-- C1 counterexample: a two-chunk corpus where the lexical-only fused
ranking contains the pair `(0, 0)` with fused score `0 < 0.2`: nothing is
dropped before the final ranking, so the claimed relevance floor does not
exist in the code. -/
theorem hybrid_no_floor_cx :
    ¬ ∀ p ∈ hybrid_retrieval ⟨[[(0, 1)], [(1, 1)]]⟩ [(1, 1)] [] [] 2 1,
      (1/5 : ℚ) ≤ p.2 := by
  intro h
  have heval : hybrid_retrieval ⟨[[(0, 1)], [(1, 1)]]⟩ [(1, 1)] [] [] 2 1 =
      [(1, 1), (0, 0)] := by
    norm_num [hybrid_retrieval, hybridRanked, hybridMerged, bm25Score, dot,
      sparseNorm, minMaxFold, denseSim, buildSimAux, f32Eps,
      List.insertionSort, List.orderedInsert]
  have h0 := h (0, 0) (by rw [heval]; simp)
  norm_num at h0

/-- C3 witness -/
theorem hybrid_fusion_score_witness :
    ((1 : ℚ)/2 = (1/2 : ℚ) * sparseNorm (bm25Score ⟨[[(0, 1)], [(1, 1)]]⟩ [(1, 1)]) 1 +
        (1 - 1/2) * denseSim [some 0] [3] 1) ∧
    denseSim [some 0] [3] 5 = 0 ∧
    denseSim [some 0] [3] 0 = 1 / (1 + ([(3 : ℚ)]).getD 0 0) := by
  have h := hybrid_fusion_score ⟨[[(0, 1)], [(1, 1)]]⟩ [(1, 1)] [some 0] [3] 2 (1/2)
  refine ⟨h.1 (1, 1/2) ?_, h.2.1 5 (by decide), h.2.2 0 0 (by decide) ?_⟩
  · have heval : hybrid_retrieval ⟨[[(0, 1)], [(1, 1)]]⟩ [(1, 1)] [some 0] [3] 2 (1/2) =
        [(1, 1/2), (0, 1/8)] := by
      norm_num [hybrid_retrieval, hybridRanked, hybridMerged, bm25Score, dot,
        sparseNorm, minMaxFold, denseSim, buildSimAux, f32Eps,
        List.insertionSort, List.orderedInsert, Function.update]
    rw [heval]
    simp
  · intro j' hj' e
    rw [List.getElem?_eq_none (by simpa using hj')] at e
    simp at e

theorem foldl_dot_inner_no_match {b : SparseEmb} {p : Nat × ℚ}
    (h : ∀ u ∈ b, p.1 ≠ u.1) :
    ∀ s : ℚ, b.foldl (fun t q => if p.1 = q.1 then t + p.2 * q.2 else t) s = s := by
  induction b with
  | nil => intro s; rfl
  | cons u rest ih =>
    intro s
    have hu : p.1 ≠ u.1 := h u (List.mem_cons_self u rest)
    rw [List.foldl_cons, if_neg hu]
    exact ih (fun v hv => h v (List.mem_cons_of_mem u hv)) s

theorem dot_disjoint_eq_zero {a b : SparseEmb}
    (h : ∀ t ∈ a, ∀ u ∈ b, t.1 ≠ u.1) : dot a b = 0 := by
  rw [dot]
  suffices hs : ∀ s : ℚ,
      a.foldl (fun s p => b.foldl (fun t q => if p.1 = q.1 then t + p.2 * q.2 else t) s) s = s
    from hs 0
  induction a with
  | nil => intro s; rfl
  | cons t rest ih =>
    intro s
    rw [List.foldl_cons,
      foldl_dot_inner_no_match (h t (List.mem_cons_self t rest)) s]
    exact ih (fun v hv => h v (List.mem_cons_of_mem t hv)) s

theorem map_dot_disjoint (qEmb : SparseEmb) :
    ∀ docs : List SparseEmb, (∀ t ∈ qEmb, ∀ d ∈ docs, ∀ u ∈ d, t.1 ≠ u.1) →
      docs.map (fun d => dot qEmb d) = List.replicate docs.length 0 := by
  intro docs
  induction docs with
  | nil => intro _; rfl
  | cons d rest ih =>
    intro h
    rw [List.map_cons, List.length_cons, List.replicate_succ,
      dot_disjoint_eq_zero (fun t ht u hu =>
        h t ht d (List.mem_cons_self d rest) u hu),
      ih (fun t ht e he u hu => h t ht e (List.mem_cons_of_mem d he) u hu)]

/-- C9: `Bm25Index::score` returns one score per corpus chunk, in build
order; a query embedding whose token indices are all absent from the fitted
vocabulary (hence disjoint from every document embedding's indices) yields
the all-zero score vector — unknown terms contribute zero weight and the
function is total, so they never cause an error. -/
theorem bm25_score_shape (idx : Bm25Index) (qEmb : SparseEmb) :
    (bm25Score idx qEmb).length = idx.docEmbeddings.length ∧
    ((∀ t ∈ qEmb, ∀ d ∈ idx.docEmbeddings, ∀ u ∈ d, t.1 ≠ u.1) →
      bm25Score idx qEmb = List.replicate idx.docEmbeddings.length 0) := by
  constructor
  · simp [bm25Score]
  · intro h
    rw [bm25Score]
    exact map_dot_disjoint qEmb idx.docEmbeddings h

/-- Witness for C9: a query embedding on out-of-vocabulary token `5`. -/
theorem bm25_score_shape_witness :
    bm25Score ⟨[[(0, 1)], [(1, 2)]]⟩ [(5, 3)] = List.replicate 2 0 :=
  (bm25_score_shape ⟨[[(0, 1)], [(1, 2)]]⟩ [(5, 3)]).2 (by decide)

theorem iterLoop_spec (retrieve : List Char → Option (List Char × ℚ × List Char))
    (thr : ℚ) (maxC : Nat) :
    ∀ (fuel stepNo pushed : Nat) (best : ℚ) (q : List Char),
      (iterLoop retrieve thr maxC fuel stepNo pushed best q).2 ≤ fuel ∧
      (iterLoop retrieve thr maxC fuel stepNo pushed best q).1.length ≤ fuel ∧
      (iterLoop retrieve thr maxC fuel stepNo pushed best q).1.map
          (fun r => r.step) =
        List.range' stepNo
          (iterLoop retrieve thr maxC fuel stepNo pushed best q).1.length := by
  intro fuel
  induction fuel with
  | zero => intro stepNo pushed best q; simp [iterLoop]
  | succ fuel ih =>
    intro stepNo pushed best q
    rw [iterLoop]
    match hr : retrieve q with
    | none => simp
    | some (text, score, meta) =>
      dsimp only
      by_cases hth : score - best < thr
      · simp [hth]
      · rw [if_neg hth]
        by_cases hmax : pushed + 1 ≥ maxC
        · simp [hmax, List.range'_one]
        · rw [if_neg hmax]
          match hk : extract_refinement_keywords text q with
          | [] => simp [List.range'_one]
          | kw :: kws =>
            have h := ih (stepNo + 1) (pushed + 1) score
              (refine_query q (kw :: kws))
            simp only [List.length_cons, List.map_cons]
            refine ⟨by omega, by omega, ?_⟩
            rw [h.2.2, List.range'_succ]

/-- C7: the refiner makes at most `steps` retrieval calls, returns at most
`steps` results, and the `step` fields of the returned results are the
consecutive integers `1, 2, …` in arrival order. -/
theorem iterative_steps_bound (retrieve : List Char → Option (List Char × ℚ × List Char))
    (initialQuery : List Char) (steps : Nat) (thr : ℚ) (maxChunks : Nat) :
    iterativeCalls retrieve initialQuery steps thr maxChunks ≤ steps ∧
    (iterative_retrieval retrieve initialQuery steps thr maxChunks).length ≤ steps ∧
    (iterative_retrieval retrieve initialQuery steps thr maxChunks).map
        (fun r => r.step) =
      List.range' 1
        (iterative_retrieval retrieve initialQuery steps thr maxChunks).length :=
  iterLoop_spec retrieve thr maxChunks steps 1 0 0 initialQuery

theorem iterLoop_length_le (retrieve : List Char → Option (List Char × ℚ × List Char))
    (thr : ℚ) (maxC : Nat) :
    ∀ (fuel stepNo pushed : Nat) (best : ℚ) (q : List Char),
      (iterLoop retrieve thr maxC fuel stepNo pushed best q).1.length ≤
        min fuel (max (maxC - pushed) 1) := by
  intro fuel
  induction fuel with
  | zero => intro stepNo pushed best q; simp [iterLoop]
  | succ fuel ih =>
    intro stepNo pushed best q
    rw [iterLoop]
    match hr : retrieve q with
    | none => simp
    | some (text, score, meta) =>
      dsimp only
      by_cases hth : score - best < thr
      · simp [hth]
      · rw [if_neg hth]
        by_cases hmax : pushed + 1 ≥ maxC
        · simp only [hmax, if_true, List.length_cons, List.length_nil]
          omega
        · rw [if_neg hmax]
          match hk : extract_refinement_keywords text q with
          | [] => simp only [List.length_cons, List.length_nil]; omega
          | kw :: kws =>
            have h := ih (stepNo + 1) (pushed + 1) score
              (refine_query q (kw :: kws))
            simp only [List.length_cons]
            omega

/-- C10 amended: the refiner stops as soon as the number of accepted results
reaches `max_chunks` (the check happens after each push), so the result
length is at most `min steps (max max_chunks 1)` — the `max … 1` because
with `max_chunks = 0` one result is still pushed before the check fires. -/
theorem iterative_max_chunks_bound
    (retrieve : List Char → Option (List Char × ℚ × List Char))
    (initialQuery : List Char) (steps : Nat) (thr : ℚ) (maxChunks : Nat) :
    (iterative_retrieval retrieve initialQuery steps thr maxChunks).length ≤
      min steps (max maxChunks 1) := by
  have h := iterLoop_length_le retrieve thr maxChunks steps 1 0 0 initialQuery
  simpa [iterative_retrieval] using h

/-- C10 counterexample: with `max_chunks = 0` and an accepting retrieval,
`iterative_retrieval` still returns one result, so its length is not bounded
by `min steps max_chunks = 0`. -/
theorem iterative_max_chunks_cx :
    (iterative_retrieval (fun _ => some (['t'], 1, ['m'])) ['q'] 1 0 0).length = 1 ∧
    ¬ (iterative_retrieval (fun _ => some (['t'], 1, ['m'])) ['q'] 1 0 0).length ≤
        min 1 0 := by
  have heval : iterative_retrieval (fun _ => some (['t'], 1, ['m'])) ['q'] 1 0 0 =
      [⟨1, ['q'], ['t'], ['m'], 1⟩] := by
    rw [iterative_retrieval, iterLoop]
    norm_num
  rw [heval]
  simp

/-- C8: a retrieved score is accepted and recorded iff
`current_score - best_score_so_far ≥ improvement_threshold`, with
`best_score` initialized to `0`: the first hit is rejected exactly when its
own score is below the threshold, and a first score meeting the threshold
followed by a second score improving by less than the threshold yields
exactly one IterationResult. -/
theorem iterative_first_acceptance
    (retrieve : List Char → Option (List Char × ℚ × List Char))
    (q0 t1 m1 : List Char) (s1 : ℚ) (steps maxC : Nat) (thr : ℚ)
    (hr : retrieve q0 = some (t1, s1, m1)) :
    (0 < steps → s1 - 0 < thr →
      iterative_retrieval retrieve q0 steps thr maxC = []) ∧
    (∀ t2 m2 : List Char, ∀ s2 : ℚ, 2 ≤ steps → 2 ≤ maxC → thr ≤ s1 - 0 →
      extract_refinement_keywords t1 q0 ≠ [] →
      retrieve (refine_query q0 (extract_refinement_keywords t1 q0)) =
        some (t2, s2, m2) →
      s2 - s1 < thr →
      iterative_retrieval retrieve q0 steps thr maxC =
        [⟨1, q0, t1, m1, s1⟩]) := by
  constructor
  · intro hpos hlt
    obtain ⟨n, rfl⟩ : ∃ n, steps = n + 1 := ⟨steps - 1, by omega⟩
    rw [iterative_retrieval, iterLoop, hr]
    dsimp only
    rw [if_pos (by simpa using hlt)]
  · intro t2 m2 s2 hsteps hmax hth hkne hr2 hlt2
    obtain ⟨n, rfl⟩ : ∃ n, steps = n + 2 := ⟨steps - 2, by omega⟩
    rw [iterative_retrieval, iterLoop, hr]
    dsimp only
    rw [if_neg (by simpa using not_lt.mpr hth), if_neg (by omega)]
    match hk : extract_refinement_keywords t1 q0 with
    | [] => exact absurd hk hkne
    | kw :: kws =>
      rw [hk] at hr2
      dsimp only
      rw [iterLoop, hr2]
      dsimp only
      rw [if_pos hlt2]

/-- Oracle for the C8 witness: the initial query retrieves a chunk with
score `0.5` and refinement keywords; every refined query retrieves score
`0.51`. -/
def retC8 : List Char → Option (List Char × ℚ × List Char) := fun q =>
  if q = ("alpha".toList) then
    some (("wonderful tremendous".toList), 1/2, ['m'])
  else some (['x'], 51/100, ['m'])

/-- Witness for C8: the spec's scenario (`improvement_threshold = 0.02`,
first score `0.5` accepted, second score `0.51` rejected) yields exactly one
IterationResult. -/
theorem iterative_first_acceptance_witness :
    iterative_retrieval retC8 ("alpha".toList) 3 (1/50) 5 =
      [⟨1, "alpha".toList, "wonderful tremendous".toList, ['m'], 1/2⟩] := by
  have hk : extract_refinement_keywords ("wonderful tremendous".toList)
      ("alpha".toList) = ["tremendous".toList, "wonderful".toList] := by decide
  refine (iterative_first_acceptance retC8 ("alpha".toList)
    ("wonderful tremendous".toList) ['m'] (1/2) 3 5 (1/50)
    (by simp [retC8])).2 ['x'] ['m'] (51/100) (by norm_num) (by norm_num)
    (by norm_num) (by rw [hk]; decide) ?_ (by norm_num)
  rw [hk, show refine_query ("alpha".toList)
    ["tremendous".toList, "wonderful".toList] =
      ("alpha tremendous wonderful".toList) from by decide]
  simp only [retC8]
  rw [if_neg (by decide)]

/-- Witness for the amended C1 at a concrete two-chunk corpus with
`top_k = 1`. -/
theorem hybrid_no_floor_witness :
    (hybrid_retrieval ⟨[[(0, 1)], [(1, 1)]]⟩ [(1, 1)] [] [] 1 1).length =
       min 1 2 ∧
    ∃ s, (0, s) ∈ hybridRanked (bm25Score ⟨[[(0, 1)], [(1, 1)]]⟩ [(1, 1)]) [] [] 1 := by
  have h := hybrid_no_floor ⟨[[(0, 1)], [(1, 1)]]⟩ [(1, 1)] [] [] 1 1
  exact ⟨h.1, h.2 0 (by norm_num)⟩
